import Mathlib

/-!
# Verification of the vhs-teletext core (per-line VBI decoder and ordered pipeline)

This file gives a shallow embedding, in Lean 4, of the core of the
vhs-teletext repository:

* `src/teletext/mp.py` — the ordered parallel pipeline
  (`_PureGeneratorPoolMP.apply`, `_PureGeneratorPoolSingle.apply`);
* `src/vbi.py` — the per-line VBI decoder (`Vbi.find_offset_and_scale`,
  `Vbi.make_guess_mask`, `Vbi.make_possible_bytes`, `Vbi._deconvolve`,
  `Vbi.deconvolve`).

Real-valued sample data is modelled with `ℚ`.  The numerical kernels that
live in external libraries (scipy's `gaussian_filter1d`, `interp1d`,
`fminbound`, numpy reductions) are abstracted as function parameters, with
their documented contracts stated as hypotheses where a claim needs them;
everything that is code of the repository itself is translated directly.
-/

namespace Teletext

/-! ## Ordered parallel pipeline (src/teletext/mp.py)

The dispatcher in `_PureGeneratorPoolMP.apply` tags each input with a
sequence number (`enumerate`), sends it to the workers, and reorders the
results it receives using a dict keyed by sequence number.  The worker
layer (`denumerate` / `renumerate` / `worker`) guarantees that, for a pure
streaming map `F` (exactly one output per input, each output depending only
on that input), every work item `(n, x)` eventually comes back as
`(n, F-output-for-x)`; the arrival order on the done queue is arbitrary.
We therefore model the stream of results reaching the dispatcher as an
arbitrary permutation of the enumerated output list, and model the
dispatcher's reorder loop exactly. -/

namespace MP

variable {α β : Type}

/-- Model of `_PureGeneratorPoolSingle.apply` (mp.py, lines 163-166): each input item
is put on the private work queue and one output of the pure generator is
pulled immediately.  For a pure streaming map this yields one output per
input, in order. -/
def singleApply (f : α → β) : List α → List β
  | [] => []
  | x :: xs => f x :: singleApply f xs

/-- Lookup of `received[k]` in the dispatcher's reorder dict, modelled as an
association list keyed by sequence number. -/
def alookup (k : Nat) : List (Nat × β) → Option β
  | [] => none
  | (n, y) :: m => if n = k then some y else alookup k m

/-- Model of `del received[k]`: remove the (first) entry with key `k`. -/
def aerase (k : Nat) : List (Nat × β) → List (Nat × β)
  | [] => []
  | (n, y) :: m => if n = k then m else (n, y) :: aerase k m

theorem alookup_eq_none_iff (k : Nat) (m : List (Nat × β)) :
    alookup k m = none ↔ k ∉ m.map Prod.fst := by
  induction m with
  | nil => simp [alookup]
  | cons p m ih =>
    obtain ⟨n, y⟩ := p
    simp only [alookup, List.map_cons, List.mem_cons]
    by_cases h : n = k
    · subst h
      simp
    · rw [if_neg h, ih]
      constructor
      · intro hnk hc
        rcases hc with hc | hc
        · exact h hc.symm
        · exact hnk hc
      · intro hc hk
        exact hc (Or.inr hk)

theorem alookup_mem : ∀ {m : List (Nat × β)} {k : Nat} {y : β},
    alookup k m = some y → (k, y) ∈ m := by
  intro m
  induction m with
  | nil =>
    intro k y h
    simp [alookup] at h
  | cons p m ih =>
    intro k y h
    obtain ⟨n, z⟩ := p
    simp only [alookup] at h
    by_cases hn : n = k
    · rw [if_pos hn] at h
      obtain rfl := Option.some.inj h
      subst hn
      exact List.mem_cons_self _ _
    · rw [if_neg hn] at h
      exact List.mem_cons_of_mem _ (ih h)

theorem aerase_sublist (k : Nat) (m : List (Nat × β)) :
    (aerase k m).Sublist m := by
  induction m with
  | nil => simp [aerase]
  | cons p m ih =>
    obtain ⟨n, y⟩ := p
    by_cases h : n = k
    · simp only [aerase, if_pos h]
      exact List.sublist_cons_self (n, y) m
    · simp only [aerase, if_neg h]
      exact List.Sublist.cons₂ _ ih

theorem mem_aerase {k : Nat} {m : List (Nat × β)} {p : Nat × β}
    (h : p ∈ aerase k m) : p ∈ m :=
  (aerase_sublist k m).mem h

theorem aerase_length {k : Nat} : ∀ {m : List (Nat × β)},
    k ∈ m.map Prod.fst → (aerase k m).length + 1 = m.length := by
  intro m
  induction m with
  | nil =>
    intro h
    simp at h
  | cons p m ih =>
    intro h
    obtain ⟨n, y⟩ := p
    by_cases hn : n = k
    · simp [aerase, hn]
    · simp only [List.map_cons, List.mem_cons] at h
      rcases h with h | h
      · exact absurd h.symm hn
      · have := ih h
        simp only [aerase, if_neg hn, List.length_cons]
        omega

theorem keys_aerase_of_nodup {k : Nat} : ∀ {m : List (Nat × β)},
    (m.map Prod.fst).Nodup → ∀ j,
    (j ∈ (aerase k m).map Prod.fst ↔ j ∈ m.map Prod.fst ∧ j ≠ k) := by
  intro m
  induction m with
  | nil =>
    intro _ j
    simp [aerase]
  | cons p m ih =>
    intro hnd j
    obtain ⟨n, y⟩ := p
    simp only [List.map_cons, List.nodup_cons] at hnd
    by_cases hn : n = k
    · subst hn
      simp only [aerase, if_pos rfl, List.map_cons, List.mem_cons]
      constructor
      · intro h
        refine ⟨Or.inr h, ?_⟩
        intro hj
        exact hnd.1 (hj ▸ h)
      · rintro ⟨h | h, hne⟩
        · exact absurd h hne
        · exact h
    · simp only [aerase, if_neg hn, List.map_cons, List.mem_cons, ih hnd.2 j]
      constructor
      · rintro (h | ⟨h1, h2⟩)
        · subst h
          exact ⟨Or.inl rfl, fun hk => hn hk⟩
        · exact ⟨Or.inr h1, h2⟩
      · rintro ⟨h | h, hne⟩
        · exact Or.inl h
        · exact Or.inr ⟨h, hne⟩

/-- The inner drain loop of `_PureGeneratorPoolMP.apply` (mp.py, lines
117-120), with explicit fuel: while the next expected sequence number is
present in the dict, yield its value, delete it, and advance.  Returns the
yielded outputs, the new expected index and the remaining dict.  Each
successful turn removes one dict entry, so fuel `m.length` is exact. -/
def drainGo : Nat → Nat → List (Nat × β) → List β × Nat × List (Nat × β)
  | 0, k, m => ([], k, m)
  | fuel + 1, k, m =>
    match alookup k m with
    | none => ([], k, m)
    | some y =>
      let r := drainGo fuel (k + 1) (aerase k m)
      (y :: r.1, r.2)

def drainFrom (k : Nat) (m : List (Nat × β)) : List β × Nat × List (Nat × β) :=
  drainGo m.length k m

theorem drainGo_none (fuel k : Nat) (m : List (Nat × β))
    (h : alookup k m = none) : drainGo fuel k m = ([], k, m) := by
  cases fuel with
  | zero => rfl
  | succ fuel => simp [drainGo, h]

theorem drainGo_some (fuel k : Nat) (m : List (Nat × β)) (y : β)
    (h : alookup k m = some y) :
    drainGo (fuel + 1) k m =
      ((y :: (drainGo fuel (k + 1) (aerase k m)).1,
        (drainGo fuel (k + 1) (aerase k m)).2)) := by
  simp [drainGo, h]

/-- One turn of the dispatcher's receive loop (mp.py, lines 109-120), on
arrival of `(n, y)` from the done queue: store it in the reorder dict, then
drain every consecutive ready result. -/
def dispatchStep (st : List β × Nat × List (Nat × β)) (a : Nat × β) :
    List β × Nat × List (Nat × β) :=
  let r := drainFrom st.2.1 (st.2.2 ++ [a])
  (st.1 ++ r.1, r.2)

/-- Model of `_PureGeneratorPoolMP.apply` as seen from the output side: fold the
dispatcher's receive loop over the sequence of arrivals from the done
queue, starting with an empty dict and expected index 0, and collect
everything yielded. -/
def mpApply (arrivals : List (Nat × β)) : List β :=
  (arrivals.foldl dispatchStep ([], 0, [])).1

/-- Invariant of the dispatcher state `(out, k, m)` relative to the result
list `R` and the list of already-processed arrival keys `P`: the output so
far is exactly the first `k` results, every dict entry is a genuine
`(index, result)` pair, dict keys are distinct, the expected index is not
parked in the dict, and the processed keys are exactly the indices either
already emitted or parked in the dict. -/
def DispatchInv (R : List β) (out : List β) (k : Nat) (m : List (Nat × β))
    (P : List Nat) : Prop :=
  out = R.take k ∧
  (∀ p ∈ m, p ∈ R.enum) ∧
  (m.map Prod.fst).Nodup ∧
  alookup k m = none ∧
  (∀ j, (j < k ∨ j ∈ m.map Prod.fst) ↔ j ∈ P)

theorem mem_enum_take {R : List β} {k : Nat} {y : β}
    (h : (k, y) ∈ R.enum) : k < R.length ∧ R.take (k + 1) = R.take k ++ [y] := by
  have h1 : k < R.length := by
    have := List.enum_map_fst R ▸ List.mem_map_of_mem Prod.fst h
    simpa [List.mem_range] using this
  rw [List.mem_iff_getElem] at h
  obtain ⟨i, hi, hy⟩ := h
  rw [List.getElem_enum] at hy
  have hik : i = k := congrArg Prod.fst hy
  subst hik
  have hyv : R[i] = y := congrArg Prod.snd hy
  refine ⟨h1, ?_⟩
  rw [List.take_succ, List.getElem?_eq_getElem h1, hyv]
  simp

/-- Specification of the drain loop: starting from a consistent dict, it
emits exactly the results from index `k` up to the new expected index,
removes exactly those keys from the dict, and stops with the new expected
index absent from the dict. -/
theorem drainGo_spec (R : List β) :
    ∀ (fuel : Nat) (m : List (Nat × β)) (k : Nat) (out : List β),
    m.length ≤ fuel →
    out = R.take k →
    (∀ p ∈ m, p ∈ R.enum) →
    (m.map Prod.fst).Nodup →
    (out ++ (drainGo fuel k m).1 = R.take (drainGo fuel k m).2.1) ∧
    (∀ p ∈ (drainGo fuel k m).2.2, p ∈ R.enum) ∧
    ((drainGo fuel k m).2.2.map Prod.fst).Nodup ∧
    alookup (drainGo fuel k m).2.1 (drainGo fuel k m).2.2 = none ∧
    (∀ j, ((j < (drainGo fuel k m).2.1 ∨ j ∈ (drainGo fuel k m).2.2.map Prod.fst) ↔
      (j < k ∨ j ∈ m.map Prod.fst))) := by
  intro fuel
  induction fuel with
  | zero =>
    intro m k out hfuel hout hmem hnd
    have hm : m = [] := by
      cases m with
      | nil => rfl
      | cons a l => simp at hfuel
    subst hm
    rw [drainGo_none 0 k [] rfl]
    exact ⟨by simpa using hout, hmem, hnd, rfl, fun j => Iff.rfl⟩
  | succ fuel ih =>
    intro m k out hfuel hout hmem hnd
    cases h : alookup k m with
    | none =>
      rw [drainGo_none (fuel + 1) k m h]
      exact ⟨by simpa using hout, hmem, hnd, h, fun j => Iff.rfl⟩
    | some y =>
      have hkm : (k, y) ∈ m := alookup_mem h
      have hk : k ∈ m.map Prod.fst := List.mem_map_of_mem Prod.fst hkm
      have hlen := aerase_length hk
      have hfuel' : (aerase k m).length ≤ fuel := by omega
      have henum : (k, y) ∈ R.enum := hmem _ hkm
      obtain ⟨hkR, htake⟩ := mem_enum_take henum
      have hmem' : ∀ p ∈ aerase k m, p ∈ R.enum := fun p hp => hmem _ (mem_aerase hp)
      have hnd' : ((aerase k m).map Prod.fst).Nodup :=
        List.Nodup.sublist (List.Sublist.map Prod.fst (aerase_sublist k m)) hnd
      have hout' : out ++ [y] = R.take (k + 1) := by rw [htake, hout]
      obtain ⟨i1, i2, i3, i4, i5⟩ :=
        ih (aerase k m) (k + 1) (out ++ [y]) hfuel' hout' hmem' hnd'
      rw [drainGo_some fuel k m y h]
      refine ⟨by simpa using i1, i2, i3, i4, ?_⟩
      intro j
      simp only
      rw [i5 j]
      rcases Nat.lt_trichotomy j k with hj | hj | hj
      · simp [hj, Nat.lt_succ_of_lt hj]
      · subst hj
        simp [Nat.lt_succ_self, hk]
      · have h1 : ¬ j < k + 1 := by omega
        have h2 : ¬ j < k := by omega
        have h3 : j ≠ k := by omega
        simp [h1, h2, keys_aerase_of_nodup hnd, h3]

theorem dispatch_go (R : List β) :
    ∀ (rest : List (Nat × β)) (out : List β) (k : Nat) (m : List (Nat × β))
      (P : List Nat),
    DispatchInv R out k m P →
    (∀ p ∈ rest, p ∈ R.enum) →
    (P ++ rest.map Prod.fst).Nodup →
    DispatchInv R (rest.foldl dispatchStep (out, k, m)).1
      (rest.foldl dispatchStep (out, k, m)).2.1
      (rest.foldl dispatchStep (out, k, m)).2.2
      (P ++ rest.map Prod.fst) := by
  intro rest
  induction rest with
  | nil =>
    intro out k m P hinv _ _
    simpa using hinv
  | cons a rest ih =>
    intro out k m P hinv hmem hnd
    obtain ⟨n, y⟩ := a
    obtain ⟨h1, h2, h3, _h4, h5⟩ := hinv
    have hamem : (n, y) ∈ R.enum := hmem _ (List.mem_cons_self _ _)
    have hnP : n ∉ P := by
      intro hc
      rw [List.nodup_append] at hnd
      exact hnd.2.2 hc (List.mem_cons_self _ _)
    have hnm : n ∉ m.map Prod.fst := fun hc => hnP ((h5 n).mp (Or.inr hc))
    have hmem1 : ∀ p ∈ m ++ [(n, y)], p ∈ R.enum := by
      intro p hp
      rcases List.mem_append.mp hp with hp | hp
      · exact h2 _ hp
      · simp only [List.mem_singleton] at hp
        subst hp
        exact hamem
    have hnd1 : ((m ++ [(n, y)]).map Prod.fst).Nodup := by
      rw [List.map_append, List.nodup_append]
      refine ⟨h3, by simp, ?_⟩
      intro a ha hb
      simp only [List.map_cons, List.map_nil, List.mem_singleton] at hb
      subst hb
      exact hnm ha
    obtain ⟨d1, d2, d3, d4, d5⟩ :=
      drainGo_spec R (m ++ [(n, y)]).length (m ++ [(n, y)]) k out le_rfl h1 hmem1 hnd1
    have hstep :
        dispatchStep (out, k, m) (n, y) =
          (out ++ (drainFrom k (m ++ [(n, y)])).1,
           (drainFrom k (m ++ [(n, y)])).2.1,
           (drainFrom k (m ++ [(n, y)])).2.2) := rfl
    have hinv' : DispatchInv R (dispatchStep (out, k, m) (n, y)).1
        (dispatchStep (out, k, m) (n, y)).2.1
        (dispatchStep (out, k, m) (n, y)).2.2 (P ++ [n]) := by
      rw [hstep]
      refine ⟨d1, d2, d3, d4, ?_⟩
      intro j
      rw [show (drainFrom k (m ++ [(n, y)])) =
        drainGo (m ++ [(n, y)]).length k (m ++ [(n, y)]) from rfl]
      rw [d5 j]
      constructor
      · rintro (hj | hj)
        · exact List.mem_append.mpr (Or.inl ((h5 j).mp (Or.inl hj)))
        · rw [List.map_append] at hj
          rcases List.mem_append.mp hj with hj | hj
          · exact List.mem_append.mpr (Or.inl ((h5 j).mp (Or.inr hj)))
          · simp only [List.map_cons, List.map_nil, List.mem_singleton] at hj
            exact List.mem_append.mpr (Or.inr (by simp [hj]))
      · intro hj
        rcases List.mem_append.mp hj with hj | hj
        · rcases (h5 j).mpr hj with hj' | hj'
          · exact Or.inl hj'
          · refine Or.inr ?_
            rw [List.map_append]
            exact List.mem_append.mpr (Or.inl hj')
        · simp only [List.mem_singleton] at hj
          subst hj
          refine Or.inr ?_
          rw [List.map_append]
          exact List.mem_append.mpr (Or.inr (by simp))
    have hmem' : ∀ p ∈ rest, p ∈ R.enum := fun p hp =>
      hmem _ (List.mem_cons_of_mem _ hp)
    have hnd' : ((P ++ [n]) ++ rest.map Prod.fst).Nodup := by
      simpa using hnd
    have := ih (dispatchStep (out, k, m) (n, y)).1
      (dispatchStep (out, k, m) (n, y)).2.1
      (dispatchStep (out, k, m) (n, y)).2.2 (P ++ [n]) hinv' hmem' hnd'
    simpa using this

theorem singleApply_eq_map (f : α → β) (I : List α) :
    singleApply f I = I.map f := by
  induction I with
  | nil => rfl
  | cons x xs ih => simp [singleApply, ih]

/-- Main reordering theorem for `_PureGeneratorPoolMP.apply`: whatever
order results arrive from the workers in (any permutation of the
enumerated outputs), the dispatcher emits exactly the full output list in
input order. -/
theorem mpApply_eq (f : α → β) (I : List α) (arrivals : List (Nat × β))
    (hperm : arrivals.Perm (I.map f).enum) :
    mpApply arrivals = I.map f := by
  set R := I.map f with hR
  have hmem : ∀ p ∈ arrivals, p ∈ R.enum := fun p hp => hperm.mem_iff.mp hp
  have hkeysperm : (arrivals.map Prod.fst).Perm (List.range R.length) := by
    have := hperm.map Prod.fst
    rwa [List.enum_map_fst] at this
  have hnd : (([] : List Nat) ++ arrivals.map Prod.fst).Nodup := by
    simp only [List.nil_append]
    exact hkeysperm.nodup_iff.mpr (List.nodup_range _)
  have hinv0 : DispatchInv R [] 0 [] [] :=
    ⟨by simp, by simp, by simp, rfl, by simp [alookup]⟩
  obtain ⟨g1, g2, g3, g4, g5⟩ := dispatch_go R arrivals [] 0 [] [] hinv0 hmem hnd
  set st := arrivals.foldl dispatchStep (([] : List β), 0, ([] : List (Nat × β))) with hst
  have hfin : ∀ j, (j < st.2.1 ∨ j ∈ st.2.2.map Prod.fst) ↔ j < R.length := by
    intro j
    rw [g5 j]
    simp only [List.nil_append]
    rw [hkeysperm.mem_iff, List.mem_range]
  have hknotin : st.2.1 ∉ st.2.2.map Prod.fst :=
    (alookup_eq_none_iff st.2.1 st.2.2).mp g4
  have hle : st.2.1 ≤ R.length := by
    by_contra hgt
    push_neg at hgt
    have := (hfin R.length).mp (Or.inl hgt)
    omega
  have hge : R.length ≤ st.2.1 := by
    by_contra hlt
    push_neg at hlt
    rcases (hfin st.2.1).mpr hlt with h | h
    · omega
    · exact hknotin h
  have hout : st.1 = R := by
    rw [g1, le_antisymm hle hge, List.take_length]
  simpa [mpApply, hst] using hout

end MP

end Teletext

/-- Claim C1. For every input iterator `I` of length `L`, every pure streaming
map (modelled by a function `f`, so that the worker layer returns the pair
`(n, f (I n))` for every submitted item, in an arbitrary arrival order),
and every worker count `P ≥ 1`, the multi-process pipeline
`_PureGeneratorPoolMP.apply` yields exactly `L` results whose `k`-th
element is the `k`-th output of `f` on `I`, identical to the single-process
implementation `_PureGeneratorPoolSingle.apply`. -/
theorem C1_pipeline_order_preserving {α β : Type} (f : α → β) (I : List α)
    (arrivals : List (Nat × β))
    (hperm : arrivals.Perm (I.map f).enum) :
    Teletext.MP.mpApply arrivals = Teletext.MP.singleApply f I ∧
    (Teletext.MP.mpApply arrivals).length = I.length ∧
    (∀ k, ∀ hk : k < I.length,
      (Teletext.MP.mpApply arrivals)[k]? = some (f I[k])) := by
  have h1 := Teletext.MP.mpApply_eq f I arrivals hperm
  have h2 := Teletext.MP.singleApply_eq_map f I
  refine ⟨h1.trans h2.symm, by simp [h1], ?_⟩
  intro k hk
  rw [h1]
  rw [List.getElem?_eq_getElem (by simpa using hk)]
  simp

/-- Witness for C1: a three-element input with out-of-order arrivals. -/
theorem C1_pipeline_order_preserving_witness :
    ([((2 : Nat), 31), (0, 11), (1, 21)].Perm (([10, 20, 30].map Nat.succ).enum)) ∧
    Teletext.MP.mpApply [((2 : Nat), 31), (0, 11), (1, 21)]
      = Teletext.MP.singleApply Nat.succ [10, 20, 30] :=
  ⟨by decide,
   (C1_pipeline_order_preserving Nat.succ [10, 20, 30] _ (by decide)).1⟩

namespace Teletext

/-! ## The per-line VBI decoder (src/vbi.py)

`Vbi` holds a raw line of 2048 float samples.  We model samples with `ℚ`.
The decoder state relevant to the claims: the bit grid (`_interp_x`,
`_guess_x`, set by `set_bitwidth` / `set_offset`), the black level, the
guess buffer (a 376-entry bit-level vector, one byte of padding at each
end), the per-byte observation masks `_mask0` / `_mask1`, the per-position
alphabets, and the deconvolution loop state (`_bytes`, `_oldbytes`,
`count`, `it`).

The scipy kernels (`gaussian_filter1d`, `interp1d`, `fminbound`) are
external library code; where a routine only pipes data through them we
abstract the composite as a function parameter (`residual`, `scaleOf`,
`err`). -/

namespace VBI

/-- Model of `set_bitwidth` (vbi.py line 105): `interp_x[i] = i*bitwidth - 8*bitwidth`. -/
def interpX (bw : ℚ) (i : Nat) : ℚ := i * bw - 8 * bw

/-- Model of `set_offset` (vbi.py line 109): `guess_x[i] = i - offset`. -/
def guessX (offset : ℚ) (i : Nat) : ℚ := (i : ℚ) - offset

/-- Black level (vbi.py line 48): mean of the first 80 samples. -/
def blackOf (vbi : Nat → ℚ) : ℚ := (∑ i ∈ Finset.range 80, vbi i) / 80

/-- Decoder state set by the alignment routine. -/
structure AlignState where
  offset : ℚ
  scale : ℚ

/-- The body of `_inner` in `find_offset_and_scale` (vbi.py lines 117-131),
with the numerical work abstracted: `_inner(x)` calls `set_offset(x)`
(storing the offset), computes and stores `self.scale` (abstracted as
`scaleOf x`), and returns the squared-error residual of the smoothed
masked guess against the clipped rescaled target over `samples[64:256]`
(abstracted as `residual x`). -/
def innerObjective (residual scaleOf : ℚ → ℚ) (x : ℚ) : AlignState × ℚ :=
  ({ offset := x, scale := scaleOf x }, residual x)

/-- Model of `find_offset_and_scale` (vbi.py lines 111-136): scipy's `fminbound`
produces a minimiser `opt` of `_inner` over `[96.0, 110.0]` (we take the
point as a parameter constrained by that contract); the routine then calls
`_inner(opt)` once more so that the offset and scale stick, and returns
`_inner(opt) < 5.0`. -/
def findOffsetAndScale (residual scaleOf : ℚ → ℚ) (opt : ℚ) :
    AlignState × Bool :=
  let r := innerObjective residual scaleOf opt
  (r.1, decide (r.2 < 5))

end VBI

end Teletext

/-- Claim C3. `find_offset_and_scale` minimises the residual objective over
offsets in `[96.0, 110.0]` (the bounded-minimiser contract of scipy's
`fminbound`, taken as a hypothesis on the returned point), stores the final
offset and the derived scale on the decoder state, and returns `True` iff
the residual at the chosen offset is strictly below `5.0`. -/
theorem C3_find_offset_and_scale (residual scaleOf : ℚ → ℚ) (opt : ℚ)
    (hlo : 96 ≤ opt) (hhi : opt ≤ 110)
    (hmin : ∀ x, 96 ≤ x → x ≤ 110 → residual opt ≤ residual x) :
    (Teletext.VBI.findOffsetAndScale residual scaleOf opt).1.offset = opt ∧
    (Teletext.VBI.findOffsetAndScale residual scaleOf opt).1.scale = scaleOf opt ∧
    ((Teletext.VBI.findOffsetAndScale residual scaleOf opt).2 = true ↔
      residual opt < 5) ∧
    (96 ≤ opt ∧ opt ≤ 110) ∧
    (∀ x, 96 ≤ x → x ≤ 110 → residual opt ≤ residual x) := by
  refine ⟨rfl, rfl, ?_, ⟨hlo, hhi⟩, hmin⟩
  simp [Teletext.VBI.findOffsetAndScale, Teletext.VBI.innerObjective]

/-- Witness for C3: a constant residual of 3 at offset 96. -/
theorem C3_find_offset_and_scale_witness :
    (Teletext.VBI.findOffsetAndScale (fun _ => 3) (fun _ => 1) 96).1.offset = 96 ∧
    ((Teletext.VBI.findOffsetAndScale (fun _ => 3) (fun _ => 1) 96).2 = true ↔
      (3 : ℚ) < 5) := by
  have h := C3_find_offset_and_scale (fun _ => 3) (fun _ => 1) 96
    (by norm_num) (by norm_num) (fun x _ _ => le_refl 3)
  exact ⟨h.1, h.2.2.1⟩

namespace Teletext

namespace VBI

/-! ### Observation-mask construction: `make_guess_mask` (vbi.py lines 138-169) -/

/-- The shifted sample positions of `make_guess_mask` (vbi.py line 144):
`gx = guess_x + bitwidth*0.5 + o`. -/
def gmX (bw offset o : ℚ) (i : Nat) : ℚ := guessX offset i + bw * (1 / 2) + o

/-- The inner `while` loop of `make_guess_mask` (vbi.py lines 147-148):
advance the bucket pointer while `b < 368` and the sample position lies
beyond the next grid point.  The pointer is bounded by 368, so fuel
`368 - b` suffices. -/
def advanceB (ix : Nat → ℚ) (x : ℚ) : Nat → Nat → Nat
  | 0, b => b
  | fuel + 1, b => if b < 368 ∧ x > ix (b + 1) then advanceB ix x fuel (b + 1) else b

/-- One turn of the sample loop of `make_guess_mask` (vbi.py lines
146-150): advance the pointer, then append the sample to bucket
`b - 4*8` when `interp_x[b] < gx[i]` and `b < 368`. -/
def gmStep (ix vbi gx : Nat → ℚ) (st : Nat × (Nat → List ℚ)) (i : Nat) :
    Nat × (Nat → List ℚ) :=
  (advanceB ix (gx i) (368 - st.1) st.1,
   if ix (advanceB ix (gx i) (368 - st.1) st.1) < gx i ∧
       advanceB ix (gx i) (368 - st.1) st.1 < 368 then
     fun j => if j = advanceB ix (gx i) (368 - st.1) st.1 - 4 * 8
       then st.2 j ++ [vbi i] else st.2 j
   else st.2)

/-- The sample loop of `make_guess_mask` run over the first `n` samples,
starting from pointer `b = 4*8` and 336 empty buckets. -/
def gmStateN (vbi : Nat → ℚ) (bw offset o : ℚ) (n : Nat) : Nat × (Nat → List ℚ) :=
  (List.range n).foldl (gmStep (interpX bw) vbi (gmX bw offset o)) (4 * 8, fun _ => [])

/-- The bucket contents after the full 2048-sample loop. -/
def gmBucket (vbi : Nat → ℚ) (bw offset o : ℚ) (j : Nat) : List ℚ :=
  (gmStateN vbi bw offset o 2048).2 j

/-- Minimum of a bucket (`min(x)` on line 152); only meaningful for a
nonempty bucket — `make_guess_mask` raises `ValueError` on an empty one,
which the model represents by the `none` branch of `makeGuessMask`. -/
def bucketMin (l : List ℚ) : ℚ := l.min?.getD 0

/-- Maximum of a bucket (`max(x)` on line 153); same proviso as `bucketMin`. -/
def bucketMax (l : List ℚ) : ℚ := l.max?.getD 0

/-- The per-byte bit loop of `make_guess_mask` (vbi.py lines 160-165),
having processed bits `0..t-1`: `mask0[i]` starts at `0xff` and bit `j` is
cleared when the bucketed minimum is below `black + 10`; `mask1[i]` starts
at its previous value (the numpy array is not reset between calls) and bit
`j` is set when the bucketed maximum exceeds `black * 2.5`. -/
def byteMasksAux (black : ℚ) (mins maxs : Nat → ℚ) (m1i : Nat) (i : Nat) :
    Nat → Nat × Nat
  | 0 => (0xff, m1i)
  | t + 1 =>
    let p := byteMasksAux black mins maxs m1i i t
    (if mins (i * 8 + t) < black + 10 then p.1 &&& (255 ^^^ (1 <<< t)) else p.1,
     if maxs (i * 8 + t) > black * (5 / 2) then p.2 ||| (1 <<< t) else p.2)

/-- The mask-construction stage of `make_guess_mask` (vbi.py lines
156-169), from the bucketed per-bit extremes: compute the per-byte masks,
then `tmp = mask1 & mask0`, `mask0 |= mask1`, `mask1 = tmp`. -/
def gmMasks (black : ℚ) (mins maxs : Nat → ℚ) (m1init : Nat → Nat) :
    (Nat → Nat) × (Nat → Nat) :=
  let a := fun n => (byteMasksAux black mins maxs (m1init n) n 8).1
  let b := fun n => (byteMasksAux black mins maxs (m1init n) n 8).2
  (fun n => a n ||| b n, fun n => b n &&& a n)

/-- Model of `make_guess_mask` (vbi.py lines 138-169): bucket the samples, take the
per-bit extremes (`min(x)` raises on an empty bucket, modelled by `none`),
and build the byte masks.  `m1init` is the incoming `_mask1` array (zeros
as set by `Vbi.__init__`). -/
def makeGuessMask (vbi : Nat → ℚ) (bw offset o : ℚ) (m1init : Nat → Nat) :
    Option ((Nat → Nat) × (Nat → Nat)) :=
  if (List.range 336).all (fun j => !(gmBucket vbi bw offset o j).isEmpty) then
    some (gmMasks (blackOf vbi)
      (fun t => bucketMin (gmBucket vbi bw offset o t))
      (fun t => bucketMax (gmBucket vbi bw offset o t))
      m1init)
  else none

theorem testBit_byteMasksAux (black : ℚ) (mins maxs : Nat → ℚ) (m1i i : Nat) :
    ∀ t j, j < 8 →
    ((byteMasksAux black mins maxs m1i i t).1.testBit j =
      (if j < t then !decide (mins (i * 8 + j) < black + 10) else true)) ∧
    ((byteMasksAux black mins maxs m1i i t).2.testBit j =
      (if j < t then decide (maxs (i * 8 + j) > black * (5 / 2)) ||
        m1i.testBit j else m1i.testBit j)) := by
  intro t
  induction t with
  | zero =>
    intro j hj
    constructor
    · show Nat.testBit 255 j = _
      rw [show (255 : Nat) = 2 ^ 8 - 1 by norm_num, Nat.testBit_two_pow_sub_one]
      simp [hj]
    · simp [Teletext.VBI.byteMasksAux]
  | succ t ih =>
    intro j hj
    obtain ⟨ih1, ih2⟩ := ih j hj
    have hshift : ((1 : Nat) <<< t) = 2 ^ t := by
      rw [Nat.shiftLeft_eq, one_mul]
    constructor
    · show ((if _ then _ else _) : Nat).testBit j = _
      by_cases hc : mins (i * 8 + t) < black + 10
      · rw [if_pos hc, Nat.testBit_and, Nat.testBit_xor, hshift,
          Nat.testBit_two_pow, ih1,
          show (255 : Nat) = 2 ^ 8 - 1 by norm_num, Nat.testBit_two_pow_sub_one]
        by_cases hjt : j = t
        · subst hjt
          simp [hj, Nat.lt_irrefl, Nat.lt_succ_self, hc]
        · have : t ≠ j := fun h => hjt h.symm
          rcases Nat.lt_trichotomy j t with h | h | h
          · simp [hj, this, h, Nat.lt_succ_of_lt h]
          · exact absurd h hjt
          · have h1 : ¬ j < t := by omega
            have h2 : ¬ j < t + 1 := by omega
            simp [hj, this, h1, h2]
      · rw [if_neg hc, ih1]
        by_cases hjt : j = t
        · subst hjt
          simp [Nat.lt_irrefl, Nat.lt_succ_self, hc]
        · rcases Nat.lt_trichotomy j t with h | h | h
          · simp [h, Nat.lt_succ_of_lt h]
          · exact absurd h hjt
          · have h1 : ¬ j < t := by omega
            have h2 : ¬ j < t + 1 := by omega
            simp [h1, h2]
    · show ((if _ then _ else _) : Nat).testBit j = _
      by_cases hc : maxs (i * 8 + t) > black * (5 / 2)
      · rw [if_pos hc, Nat.testBit_or, hshift, Nat.testBit_two_pow, ih2]
        by_cases hjt : j = t
        · subst hjt
          simp [Nat.lt_irrefl, Nat.lt_succ_self, hc]
        · have : t ≠ j := fun h => hjt h.symm
          rcases Nat.lt_trichotomy j t with h | h | h
          · simp [this, h, Nat.lt_succ_of_lt h]
          · exact absurd h hjt
          · have h1 : ¬ j < t := by omega
            have h2 : ¬ j < t + 1 := by omega
            simp [this, h1, h2]
      · rw [if_neg hc, ih2]
        by_cases hjt : j = t
        · subst hjt
          simp [Nat.lt_irrefl, Nat.lt_succ_self, hc]
        · rcases Nat.lt_trichotomy j t with h | h | h
          · simp [h, Nat.lt_succ_of_lt h]
          · exact absurd h hjt
          · have h1 : ¬ j < t := by omega
            have h2 : ¬ j < t + 1 := by omega
            simp [h1, h2]

end VBI

end Teletext

/-- Claim C6. `make_guess_mask` clears bit `j` of `mask0[n]` exactly when the
minimum bucketed sample for that bit is below `black + 10`, sets bit `j` of
`mask1[n]` exactly when the maximum bucketed sample exceeds `black * 2.5`
(given the incoming `_mask1` is zero, as `Vbi.__init__` leaves it), and
afterwards applies, in this order: `tmp = mask1 & mask0`, `mask0 |= mask1`,
`mask1 = tmp`. -/
theorem C6_mask_bits (black : ℚ) (mins maxs : Nat → ℚ) (m1init : Nat → Nat)
    (n j : Nat) (hj : j < 8) (hz : m1init n = 0) :
    ((Teletext.VBI.byteMasksAux black mins maxs (m1init n) n 8).1.testBit j =
      !decide (mins (n * 8 + j) < black + 10)) ∧
    ((Teletext.VBI.byteMasksAux black mins maxs (m1init n) n 8).2.testBit j =
      decide (maxs (n * 8 + j) > black * (5 / 2))) ∧
    ((Teletext.VBI.gmMasks black mins maxs m1init).1 n =
      ((Teletext.VBI.byteMasksAux black mins maxs (m1init n) n 8).1 |||
       (Teletext.VBI.byteMasksAux black mins maxs (m1init n) n 8).2)) ∧
    ((Teletext.VBI.gmMasks black mins maxs m1init).2 n =
      ((Teletext.VBI.byteMasksAux black mins maxs (m1init n) n 8).2 &&&
       (Teletext.VBI.byteMasksAux black mins maxs (m1init n) n 8).1)) := by
  obtain ⟨h1, h2⟩ :=
    Teletext.VBI.testBit_byteMasksAux black mins maxs (m1init n) n 8 j hj
  refine ⟨?_, ?_, rfl, rfl⟩
  · rw [h1, if_pos hj]
  · rw [h2, if_pos hj, hz]
    simp

/-- Witness for C6 at `black = 20`, constant extremes, bit 0 of byte 0. -/
theorem C6_mask_bits_witness :
    ((Teletext.VBI.byteMasksAux 20 (fun _ => 0) (fun _ => 100) 0 0 8).1.testBit 0 =
      !decide ((0 : ℚ) < 20 + 10)) ∧
    ((Teletext.VBI.byteMasksAux 20 (fun _ => 0) (fun _ => 100) 0 0 8).2.testBit 0 =
      decide ((100 : ℚ) > 20 * (5 / 2))) := by
  have h := C6_mask_bits 20 (fun _ => 0) (fun _ => 100) (fun _ => 0) 0 0
    (by decide) rfl
  exact ⟨h.1, h.2.1⟩

namespace Teletext

namespace VBI

/-! ### Characterisation of the sample-bucketing loop -/

theorem interpX_lt_interpX {bw : ℚ} (hbw : 0 < bw) {a b : Nat} (h : a < b) :
    interpX bw a < interpX bw b := by
  unfold interpX
  have hc : (a : ℚ) < b := by exact_mod_cast h
  have := mul_lt_mul_of_pos_right hc hbw
  linarith

theorem interpX_le_interpX {bw : ℚ} (hbw : 0 < bw) {a b : Nat} (h : a ≤ b) :
    interpX bw a ≤ interpX bw b := by
  rcases Nat.lt_or_ge a b with hab | hab
  · exact le_of_lt (interpX_lt_interpX hbw hab)
  · have : a = b := by omega
    subst this
    exact le_refl _

theorem gmX_lt_gmX (bw off o : ℚ) {i i' : Nat} (h : i < i') :
    gmX bw off o i < gmX bw off o i' := by
  unfold gmX guessX
  have hc : (i : ℚ) < i' := by exact_mod_cast h
  linarith

theorem advanceB_ge (ix : Nat → ℚ) (x : ℚ) :
    ∀ fuel b, b ≤ advanceB ix x fuel b := by
  intro fuel
  induction fuel with
  | zero => intro b; exact le_refl b
  | succ f ih =>
    intro b
    simp only [advanceB]
    split
    · exact le_trans (Nat.le_succ b) (ih (b + 1))
    · exact le_refl b

theorem advanceB_le368 (ix : Nat → ℚ) (x : ℚ) :
    ∀ fuel b, b ≤ 368 → advanceB ix x fuel b ≤ 368 := by
  intro fuel
  induction fuel with
  | zero => intro b hb; exact hb
  | succ f ih =>
    intro b hb
    simp only [advanceB]
    split
    · next h => exact ih (b + 1) (by omega)
    · exact hb

theorem advanceB_stop (ix : Nat → ℚ) (x : ℚ) :
    ∀ fuel b, b ≤ 368 → 368 - b ≤ fuel →
    (advanceB ix x fuel b = 368 ∨ x ≤ ix (advanceB ix x fuel b + 1)) := by
  intro fuel
  induction fuel with
  | zero =>
    intro b hb hf
    have : b = 368 := by omega
    subst this
    exact Or.inl rfl
  | succ f ih =>
    intro b hb hf
    simp only [advanceB]
    split
    · next h => exact ih (b + 1) (by omega) (by omega)
    · next h =>
      push_neg at h
      by_cases hb368 : b < 368
      · exact Or.inr (h hb368)
      · exact Or.inl (by omega)

theorem advanceB_gt (ix : Nat → ℚ) (x : ℚ) :
    ∀ fuel b, advanceB ix x fuel b = b ∨ ix (advanceB ix x fuel b) < x := by
  intro fuel
  induction fuel with
  | zero => intro b; exact Or.inl rfl
  | succ f ih =>
    intro b
    simp only [advanceB]
    split
    · next h =>
      rcases ih (b + 1) with h' | h'
      · rw [h']
        exact Or.inr h.2
      · exact Or.inr h'
    · exact Or.inl rfl

theorem advanceB_le_of (ix : Nat → ℚ) (x : ℚ) (bs : Nat)
    (hx : x ≤ ix (bs + 1)) :
    ∀ fuel b, b ≤ bs → advanceB ix x fuel b ≤ bs := by
  intro fuel
  induction fuel with
  | zero => intro b hb; exact hb
  | succ f ih =>
    intro b hb
    simp only [advanceB]
    split
    · next h =>
      have hne : b ≠ bs := by
        intro he
        subst he
        exact absurd h.2 (not_lt.mpr hx)
      exact ih (b + 1) (by omega)
    · exact hb

/-- One turn of the bucketing loop, characterised: starting from a pointer
that has not overshot the sample position, the sample is appended to
bucket `j` exactly when `interp_x[j+32] < gx[i] ≤ interp_x[j+33]`, and the
pointer invariant is maintained. -/
theorem gmStep_spec (vbi : Nat → ℚ) (bw off o : ℚ) (hbw : 0 < bw) (i : Nat)
    (b : Nat) (buckets : Nat → List ℚ)
    (hb32 : 32 ≤ b) (hb368 : b ≤ 368)
    (hlow : b = 32 ∨ interpX bw b < gmX bw off o i) :
    (32 ≤ (gmStep (interpX bw) vbi (gmX bw off o) (b, buckets) i).1 ∧
     (gmStep (interpX bw) vbi (gmX bw off o) (b, buckets) i).1 ≤ 368 ∧
     ((gmStep (interpX bw) vbi (gmX bw off o) (b, buckets) i).1 = 32 ∨
       interpX bw (gmStep (interpX bw) vbi (gmX bw off o) (b, buckets) i).1 <
         gmX bw off o i)) ∧
    (∀ j, j < 336 →
      (gmStep (interpX bw) vbi (gmX bw off o) (b, buckets) i).2 j =
        if interpX bw (j + 32) < gmX bw off o i ∧
            gmX bw off o i ≤ interpX bw (j + 33)
        then buckets j ++ [vbi i] else buckets j) := by
  set ix := interpX bw with hix
  set x := gmX bw off o i with hx
  have hb' : (gmStep ix vbi (gmX bw off o) (b, buckets) i).1 =
      advanceB ix x (368 - b) b := rfl
  set b' := advanceB ix x (368 - b) b with hdefb'
  have hge : b ≤ b' := advanceB_ge ix x (368 - b) b
  have h368 : b' ≤ 368 := advanceB_le368 ix x (368 - b) b hb368
  have hstop : b' = 368 ∨ x ≤ ix (b' + 1) :=
    advanceB_stop ix x (368 - b) b hb368 (le_refl _)
  have hgt : b' = b ∨ ix b' < x := advanceB_gt ix x (368 - b) b
  have hlow' : b' = 32 ∨ ix b' < x := by
    rcases hgt with h | h
    · rw [h]
      exact hlow
    · exact Or.inr h
  constructor
  · rw [hb']
    exact ⟨le_trans hb32 hge, h368, hlow'⟩
  · intro j hj
    have hstep2 : (gmStep ix vbi (gmX bw off o) (b, buckets) i).2 =
        (if ix b' < x ∧ b' < 368
          then (fun t => if t = b' - 4 * 8 then buckets t ++ [vbi i] else buckets t)
          else buckets) := rfl
    rw [hstep2]
    by_cases happ : ix b' < x ∧ b' < 368
    · -- the sample is appended to bucket b' - 32
      rw [if_pos happ]
      have hxle : x ≤ ix (b' + 1) := by
        rcases hstop with h | h
        · omega
        · exact h
      have hb'32 : 32 ≤ b' := le_trans hb32 hge
      show (if j = b' - 4 * 8 then buckets j ++ [vbi i] else buckets j) = _
      by_cases hjb : j = b' - 4 * 8
      · have he1 : b' - 4 * 8 + 32 = b' := by omega
        have he2 : b' - 4 * 8 + 33 = b' + 1 := by omega
        have hcond : ix (b' - 4 * 8 + 32) < x ∧ x ≤ ix (b' - 4 * 8 + 33) := by
          rw [he1, he2]
          exact ⟨happ.1, hxle⟩
        rw [if_pos hjb, hjb, if_pos hcond]
      · have hcond : ¬ (ix (j + 32) < x ∧ x ≤ ix (j + 33)) := by
          rintro ⟨hc1, hc2⟩
          -- two half-open grid intervals cannot both contain x
          rcases Nat.lt_trichotomy (j + 32) b' with h | h | h
          · have hle : ix (j + 33) ≤ ix b' :=
              interpX_le_interpX hbw (by omega)
            exact absurd (lt_of_le_of_lt (le_trans hc2 hle) happ.1) (lt_irrefl x)
          · exact hjb (by omega)
          · have hle : ix (b' + 1) ≤ ix (j + 32) :=
              interpX_le_interpX hbw (by omega)
            exact absurd (lt_of_le_of_lt (le_trans hxle hle) hc1) (lt_irrefl x)
        rw [if_neg hjb, if_neg hcond]
    · rw [if_neg happ]
      have hcond : ¬ (ix (j + 32) < x ∧ x ≤ ix (j + 33)) := ?_
      · rw [if_neg hcond]
      rintro ⟨hc1, hc2⟩
      -- the sample does lie in the grid window, so the pointer must have
      -- stopped exactly there — contradicting the non-append branch.
      have hbs : b ≤ j + 32 := by
        rcases hlow with h | h
        · omega
        · by_contra hcon
          push_neg at hcon
          have : ix (j + 33) ≤ ix b := interpX_le_interpX hbw (by omega)
          have : x < x := lt_of_le_of_lt (le_trans hc2 this) h
          exact lt_irrefl x this
      have hble : b' ≤ j + 32 := advanceB_le_of ix x (j + 32) hc2 (368 - b) b hbs
      have hblt : b' < 368 := by omega
      have hxle : x ≤ ix (b' + 1) := by
        rcases hstop with h | h
        · omega
        · exact h
      have hbeq : b' = j + 32 := by
        by_contra hne
        have hlt : b' < j + 32 := by omega
        have : ix (b' + 1) ≤ ix (j + 32) := interpX_le_interpX hbw (by omega)
        have : x < x := lt_of_le_of_lt (le_trans hxle this) hc1
        exact lt_irrefl x this
      exact happ ⟨by rw [hbeq]; exact hc1, hblt⟩

theorem gmStateN_succ (vbi : Nat → ℚ) (bw off o : ℚ) (n : Nat) :
    gmStateN vbi bw off o (n + 1) =
      gmStep (interpX bw) vbi (gmX bw off o) (gmStateN vbi bw off o n) n := by
  unfold gmStateN
  rw [List.range_succ, List.foldl_append]
  rfl

/-- Full characterisation of the bucketing loop of `make_guess_mask`
after `n` samples. -/
theorem gmStateN_spec (vbi : Nat → ℚ) (bw off o : ℚ) (hbw : 0 < bw) :
    ∀ n, 32 ≤ (gmStateN vbi bw off o n).1 ∧
    (gmStateN vbi bw off o n).1 ≤ 368 ∧
    ((gmStateN vbi bw off o n).1 = 32 ∨
      ∃ m, m < n ∧ interpX bw (gmStateN vbi bw off o n).1 < gmX bw off o m) ∧
    (∀ j, j < 336 → (gmStateN vbi bw off o n).2 j =
      ((List.range n).filter (fun i =>
        decide (interpX bw (j + 32) < gmX bw off o i ∧
          gmX bw off o i ≤ interpX bw (j + 33)))).map vbi) := by
  intro n
  induction n with
  | zero =>
    refine ⟨le_refl _, by norm_num [gmStateN], Or.inl rfl, ?_⟩
    intro j hj
    simp [gmStateN]
  | succ n ih =>
    obtain ⟨i32, i368, ilow, ibkt⟩ := ih
    have hlow : (gmStateN vbi bw off o n).1 = 32 ∨
        interpX bw (gmStateN vbi bw off o n).1 < gmX bw off o n := by
      rcases ilow with h | ⟨m, hm, h⟩
      · exact Or.inl h
      · exact Or.inr (lt_trans h (gmX_lt_gmX bw off o hm))
    have hstep := gmStep_spec vbi bw off o hbw n (gmStateN vbi bw off o n).1
      (gmStateN vbi bw off o n).2 i32 i368 hlow
    rw [gmStateN_succ]
    obtain ⟨⟨s32, s368, slow⟩, sbkt⟩ := hstep
    refine ⟨s32, s368, ?_, ?_⟩
    · rcases slow with h | h
      · exact Or.inl h
      · exact Or.inr ⟨n, Nat.lt_succ_self n, h⟩
    · intro j hj
      rw [sbkt j hj, ibkt j hj, List.range_succ, List.filter_append,
        List.map_append]
      by_cases hc : interpX bw (j + 32) < gmX bw off o n ∧
          gmX bw off o n ≤ interpX bw (j + 33)
      · rw [if_pos hc]
        simp [hc]
      · rw [if_neg hc]
        simp [hc]

end VBI

end Teletext

/-- Claim C5, amended. In `make_guess_mask`, sample `i` is bucketed by the
half-bit-shifted position `gx[i] = guess_x[i] + bitwidth*0.5 + o` (not by
`guess_x[i]` itself), with the half-open interval condition
`interp_x[b] < gx[i] ≤ interp_x[b+1]` (not `interp_x[b] ≤ gx[i] <
interp_x[b+1]`), restricted to the bucketed window `32 ≤ b < 368`; samples
whose shifted position falls outside every such interval are dropped, not
accumulated.  Bucket `j` (for bit position `b = j + 32`) therefore holds
exactly the samples with `interp_x[j+32] < gx[i] ≤ interp_x[j+33]`, in
sample order. -/
theorem C5_bucket_characterisation (vbi : Nat → ℚ) (bw off o : ℚ)
    (hbw : 0 < bw) (j : Nat) (hj : j < 336) :
    Teletext.VBI.gmBucket vbi bw off o j =
      ((List.range 2048).filter (fun i =>
        decide (Teletext.VBI.interpX bw (j + 32) < Teletext.VBI.gmX bw off o i ∧
          Teletext.VBI.gmX bw off o i ≤ Teletext.VBI.interpX bw (j + 33)))).map vbi :=
  (Teletext.VBI.gmStateN_spec vbi bw off o hbw 2048).2.2.2 j hj

/-- The all-ramp test line: sample `i` has value `i`. -/
def rampLine : Nat → ℚ := fun i => (i : ℚ)

set_option maxRecDepth 100000 in
/-- Witness for the amended C5 at `bitwidth = 5`, `offset = 100`, bucket 0. -/
theorem C5_bucket_characterisation_witness :
    Teletext.VBI.gmBucket rampLine 5 100 0 0 =
      ((List.range 2048).filter (fun i =>
        decide (Teletext.VBI.interpX 5 (0 + 32) < Teletext.VBI.gmX 5 100 0 i ∧
          Teletext.VBI.gmX 5 100 0 i ≤ Teletext.VBI.interpX 5 (0 + 33)))).map
        rampLine :=
  C5_bucket_characterisation rampLine 5 100 0 (by norm_num) 0 (by norm_num)

set_option maxRecDepth 100000 in
/-- Claim C5, counterexample. The claim as stated fails on the code: at
`bitwidth = 5`, `offset = 100`, the ramp line puts sample 403 (whose
claimed bit position per `interp_x[b] ≤ guess_x[i] < interp_x[b+1]` is
`b = 68`, bucket 36) into bucket 37 instead, because the code shifts by
half a bit width and uses the opposite half-open interval. -/
theorem C5_counterexample :
    ¬ (∀ i, i < 2048 → ∃ b,
      Teletext.VBI.interpX 5 b ≤ Teletext.VBI.guessX 100 i ∧
      Teletext.VBI.guessX 100 i < Teletext.VBI.interpX 5 (b + 1) ∧
      rampLine i ∈ Teletext.VBI.gmBucket rampLine 5 100 0 (b - 4 * 8)) := by
  intro h
  obtain ⟨b, h1, h2, h3⟩ := h 403 (by norm_num)
  have hq1 : (b : ℚ) * 5 - 8 * 5 ≤ 403 - 100 := h1
  have hq2 : (403 : ℚ) - 100 < (b + 1 : Nat) * 5 - 8 * 5 := h2
  have hb1 : (b : ℚ) < 69 := by
    push_cast at hq1 ⊢
    linarith
  have hb2 : (67 : ℚ) < b := by
    push_cast at hq2 ⊢
    linarith
  have hb69 : b < 69 := by exact_mod_cast hb1
  have hb67 : 67 < b := by exact_mod_cast hb2
  have hb : b = 68 := by omega
  subst hb
  rw [show 68 - 4 * 8 = 36 by norm_num] at h3
  rw [C5_bucket_characterisation rampLine 5 100 0 (by norm_num) 36
    (by norm_num)] at h3
  revert h3
  with_unfolding_all decide

/-- Claim C10. `make_guess_mask` returns normally only if every one of the
336 per-bit buckets receives at least one of the 2048 samples; if some
bucket is left empty, taking its minimum raises instead of producing
`mask0`/`mask1` (modelled by the `none` result). -/
theorem C10_empty_bucket_raises (vbi : Nat → ℚ) (bw offset o : ℚ)
    (m1init : Nat → Nat) :
    (Teletext.VBI.makeGuessMask vbi bw offset o m1init).isSome = true ↔
    (∀ j, j < 336 → Teletext.VBI.gmBucket vbi bw offset o j ≠ []) := by
  unfold Teletext.VBI.makeGuessMask
  by_cases h : (List.range 336).all (fun j => !(Teletext.VBI.gmBucket vbi bw offset o j).isEmpty)
  · rw [if_pos h]
    simp only [Option.isSome_some, true_iff]
    intro j hj
    have := List.all_eq_true.mp h j (List.mem_range.mpr hj)
    simpa [List.isEmpty_iff] using this
  · rw [if_neg h]
    simp only [Option.isSome_none, Bool.false_eq_true, false_iff]
    intro hc
    apply h
    rw [List.all_eq_true]
    intro j hjm
    have := hc j (List.mem_range.mp hjm)
    simpa [List.isEmpty_iff] using this

namespace Teletext

namespace VBI

/-! ### Byte alphabets and the deconvolution search (vbi.py lines 171-250) -/

/-- Modelled from the spec: `util.setbyte` is not under src/.  Spec §4.1:
`set_byte(buf, n, b)` writes byte `b` into the expanded bit-level buffer at
byte position `n+1` (accounting for the one-byte pre-padding): low bit
first, bit value 0 ⇒ 0, bit value 1 ⇒ 255, across 8 consecutive
positions. -/
def setbyte (g : Nat → ℚ) (n : Int) (b : Nat) : Nat → ℚ :=
  fun i =>
    if (n + 1) * 8 ≤ (i : Int) ∧ (i : Int) < (n + 1) * 8 + 8 then
      (if b.testBit (i - ((n + 1) * 8).toNat) then 255 else 0)
    else g i

/-- The guess buffer as initialised by `Vbi.__init__` (vbi.py lines 58-62):
pre-padding byte 0x00, then framing bytes 0x55, 0x55, 0x27. -/
def guessInit : Nat → ℚ :=
  setbyte (setbyte (setbyte (setbyte (fun _ => 0) (-1) 0x00) 0 0x55) 1 0x55) 2 0x27

/-- The `masked` filter of `make_possible_bytes` (vbi.py lines 172-176):
keep the bytes `x` with `(x & mask0[n]) == x == (x | mask1[n])`. -/
def maskFilter (m0 m1 : Nat → Nat) (bs : List Nat) (n : Nat) : List Nat :=
  bs.filter (fun x => decide ((x &&& m0 n) = x ∧ x = (x ||| m1 n)))

/-- Model of `make_possible_bytes` (vbi.py line 178): `masked(b, n) or b` — if the
filter empties a position, keep the unfiltered seed alphabet. -/
def makePossibleBytes (m0 m1 : Nat → Nat) (seeds : Nat → List Nat) (n : Nat) :
    List Nat :=
  if maskFilter m0 m1 (seeds n) n = [] then seeds n
  else maskFilter m0 m1 (seeds n) n

/-- Model of `half_possible_bytes` (vbi.py line 179): the distinct low-5-bit
patterns of a position's alphabet (`list(set(x & 0x1f ...))`). -/
def halfPossibleBytes (pb : Nat → List Nat) (n : Nat) : List Nat :=
  ((pb n).map (fun x => x &&& 0x1f)).dedup

/-- The look-ahead alphabet used at position `n` (vbi.py lines 201-204):
`half_possible_bytes[n+1]` for `n < 41`, else `[0]`. -/
def nnbOf (hpb : Nat → List Nat) (n : Nat) : List Nat :=
  if n < 41 then hpb (n + 1) else [0]

/-- Ascending lexicographic order on the `(diff, b1, b2)` tuples, as used
by `ans.sort()` on Python tuples (vbi.py line 217). -/
def ansR (p q : ℚ × Nat × Nat) : Prop :=
  p.1 < q.1 ∨ (p.1 = q.1 ∧ (p.2.1 < q.2.1 ∨ (p.2.1 = q.2.1 ∧ p.2.2 ≤ q.2.2)))

instance : DecidableRel ansR := fun p q => by
  unfold ansR
  infer_instance

theorem ansR_refl (p : ℚ × Nat × Nat) : ansR p p :=
  Or.inr ⟨rfl, Or.inr ⟨rfl, le_refl _⟩⟩

instance : IsTotal (ℚ × Nat × Nat) ansR := by
  constructor
  intro p q
  rcases lt_trichotomy p.1 q.1 with h | h | h
  · exact Or.inl (Or.inl h)
  · rcases Nat.lt_trichotomy p.2.1 q.2.1 with h2 | h2 | h2
    · exact Or.inl (Or.inr ⟨h, Or.inl h2⟩)
    · rcases Nat.le_total p.2.2 q.2.2 with h3 | h3
      · exact Or.inl (Or.inr ⟨h, Or.inr ⟨h2, h3⟩⟩)
      · exact Or.inr (Or.inr ⟨h.symm, Or.inr ⟨h2.symm, h3⟩⟩)
    · exact Or.inr (Or.inr ⟨h.symm, Or.inl h2⟩)
  · exact Or.inr (Or.inl h)

instance : IsTrans (ℚ × Nat × Nat) ansR := by
  constructor
  intro a b c hab hbc
  rcases hab with h1 | ⟨h1, h1'⟩
  · rcases hbc with h2 | ⟨h2, _⟩
    · exact Or.inl (lt_trans h1 h2)
    · exact Or.inl (h2 ▸ h1)
  · rcases hbc with h2 | ⟨h2, h2'⟩
    · exact Or.inl (h1 ▸ h2)
    · refine Or.inr ⟨h1.trans h2, ?_⟩
      rcases h1' with h3 | ⟨h3, h3'⟩
      · rcases h2' with h4 | ⟨h4, _⟩
        · exact Or.inl (lt_trans h3 h4)
        · exact Or.inl (h4 ▸ h3)
      · rcases h2' with h4 | ⟨h4, h4'⟩
        · exact Or.inl (h3 ▸ h4)
        · exact Or.inr ⟨h3.trans h4, le_trans h3' h4'⟩

/-- Loop state of `_deconvolve`: the guess buffer, the current `_bytes` array
and the candidate-evaluation counter `self.count`. -/
structure DeconvState where
  guess : Nat → ℚ
  bytes : List Nat
  count : Nat

/-- The list of `(diff, b1, b2)` tuples accumulated at position `n` of a
sweep (vbi.py lines 205-215): for each `b1` in the alphabet and each `b2`
in the look-ahead set, write `b1` at byte `n+3` and `b2` at byte `n+4` of
the guess and evaluate the squared error of the rendered guess against the
normalised smoothed target (the render-and-compare composite
`gauss ∘ interpolate` + `normalise` + sum-of-squares is the abstracted
parameter `err`). -/
def ansList (err : (Nat → ℚ) → ℚ) (pb hpb : Nat → List Nat) (st : DeconvState)
    (n : Nat) : List (ℚ × Nat × Nat) :=
  (pb n).flatMap (fun b1 => (nnbOf hpb n).map (fun b2 =>
    (err (setbyte (setbyte st.guess ((n : Int) + 3) b1) ((n : Int) + 4) b2), b1, b2)))

/-- One position of the `_deconvolve` sweep (vbi.py lines 194-219).  A
single-candidate alphabet is committed directly; otherwise every
`(b1, b2)` pair is evaluated (incrementing `self.count` per pair), the
tuples are sorted ascending and the `b1` of the first tuple is committed.
After the candidate loops the guess retains the last written pair before
the winning `b1` is re-committed at byte `n+3` (byte `n+4` keeps the last
`b2` tried); `ans[0]` on an empty candidate list would raise `IndexError`,
modelled by `none`. -/
def stepPos (err : (Nat → ℚ) → ℚ) (pb hpb : Nat → List Nat) (st : DeconvState)
    (n : Nat) : Option DeconvState :=
  match pb n with
  | [b] => some { st with guess := setbyte st.guess ((n : Int) + 3) b,
                          bytes := st.bytes.set n b }
  | _ =>
    match (List.insertionSort ansR (ansList err pb hpb st n)).head? with
    | none => none
    | some m =>
      some { guess := setbyte (setbyte (setbyte st.guess ((n : Int) + 3)
               ((pb n).getLast?.getD 0)) ((n : Int) + 4)
               ((nnbOf hpb n).getLast?.getD 0)) ((n : Int) + 3) m.2.1,
             bytes := st.bytes.set n m.2.1,
             count := st.count + (pb n).length * (nnbOf hpb n).length }

/-- One full sweep over positions `0..41` (vbi.py line 194). -/
def sweep (err : (Nat → ℚ) → ℚ) (pb hpb : Nat → List Nat) (st : DeconvState) :
    Option DeconvState :=
  (List.range 42).foldl (fun acc n => acc.bind (fun s => stepPos err pb hpb s n))
    (some st)

/-- The iteration loop of `_deconvolve` (vbi.py lines 192-225), with the
`self._oldbytes = self._bytes` rebinding (line 225) made explicit: `al`
records whether `_oldbytes` is the same array object as `_bytes` (true
from the first iteration that saw a change onwards); once aliased, the
end-of-sweep comparison compares the array with itself and always
breaks. -/
def deconvLoop (err : (Nat → ℚ) → ℚ) (pb hpb : Nat → List Nat) :
    Nat → DeconvState → List Nat → Bool → Nat → Option (DeconvState × Nat)
  | 0, st, _, _, it => some (st, it)
  | fuel + 1, st, old, al, it =>
    match sweep err pb hpb st with
    | none => none
    | some st' =>
      if al then some (st', it + 1)
      else if st'.bytes = old then some (st', it + 1)
      else deconvLoop err pb hpb fuel st' st'.bytes true (it + 1)

/-- Model of `_deconvolve` (vbi.py lines 188-225): up to 10 iterations of the sweep. -/
def deconvolveInner (err : (Nat → ℚ) → ℚ) (pb hpb : Nat → List Nat)
    (st : DeconvState) (old : List Nat) (al : Bool) (it : Nat) :
    Option (DeconvState × Nat) :=
  deconvLoop err pb hpb 10 st old al it

/-- The `_deconvolve` call inside `deconvolve` (vbi.py lines 234-237):
`_bytes` and `_oldbytes` are reset to two fresh (distinct) zero arrays and
the iteration loop runs. -/
def deconvolveRun (err : (Nat → ℚ) → ℚ) (pb hpb : Nat → List Nat)
    (g : Nat → ℚ) (c it : Nat) : Option (DeconvState × Nat) :=
  deconvolveInner err pb hpb { guess := g, bytes := List.replicate 42 0, count := c }
    (List.replicate 42 0) false it

theorem deconvLoop_succ (err : (Nat → ℚ) → ℚ) (pb hpb : Nat → List Nat)
    (fuel : Nat) (st : DeconvState) (old : List Nat) (al : Bool) (it : Nat) :
    deconvLoop err pb hpb (fuel + 1) st old al it =
      (match sweep err pb hpb st with
       | none => none
       | some st' =>
         if al then some (st', it + 1)
         else if st'.bytes = old then some (st', it + 1)
         else deconvLoop err pb hpb fuel st' st'.bytes true (it + 1)) := rfl

theorem deconvLoop_succ_none (err : (Nat → ℚ) → ℚ) (pb hpb : Nat → List Nat)
    (fuel : Nat) (st : DeconvState) (old : List Nat) (al : Bool) (it : Nat)
    (hs : sweep err pb hpb st = none) :
    deconvLoop err pb hpb (fuel + 1) st old al it = none := by
  rw [deconvLoop_succ, hs]

theorem deconvLoop_succ_some (err : (Nat → ℚ) → ℚ) (pb hpb : Nat → List Nat)
    (fuel : Nat) (st : DeconvState) (old : List Nat) (al : Bool) (it : Nat)
    (st' : DeconvState) (hs : sweep err pb hpb st = some st') :
    deconvLoop err pb hpb (fuel + 1) st old al it =
      (if al then some (st', it + 1)
       else if st'.bytes = old then some (st', it + 1)
       else deconvLoop err pb hpb fuel st' st'.bytes true (it + 1)) := by
  rw [deconvLoop_succ, hs]

end VBI

end Teletext

/-- Claim C9. Every call to `_deconvolve` performs at most two sweeps: after
the first sweep `self._oldbytes` is bound to the same array object as
`self._bytes`, so the end-of-sweep convergence comparison after the second
sweep compares the array with itself and always exits the loop, whether or
not the second sweep changed any byte; consequently the per-call iteration
counter `self.it` increases by at most 2. -/
theorem C9_at_most_two_sweeps (err : (Nat → ℚ) → ℚ)
    (pb hpb : Nat → List Nat) (st : Teletext.VBI.DeconvState)
    (old : List Nat) (al : Bool) (it : Nat)
    (stf : Teletext.VBI.DeconvState) (itf : Nat)
    (h : Teletext.VBI.deconvolveInner err pb hpb st old al it = some (stf, itf)) :
    it < itf ∧ itf ≤ it + 2 := by
  unfold Teletext.VBI.deconvolveInner at h
  cases hs : Teletext.VBI.sweep err pb hpb st with
  | none =>
    rw [show (10 : Nat) = 9 + 1 from rfl,
      Teletext.VBI.deconvLoop_succ_none err pb hpb 9 st old al it hs] at h
    exact absurd h (by simp)
  | some st1 =>
    rw [show (10 : Nat) = 9 + 1 from rfl,
      Teletext.VBI.deconvLoop_succ_some err pb hpb 9 st old al it st1 hs] at h
    by_cases hal : al
    · rw [if_pos hal] at h
      obtain ⟨-, h2⟩ := Prod.mk.injEq _ _ _ _ ▸ Option.some.inj h
      omega
    · rw [if_neg hal] at h
      by_cases heq : st1.bytes = old
      · rw [if_pos heq] at h
        obtain ⟨-, h2⟩ := Prod.mk.injEq _ _ _ _ ▸ Option.some.inj h
        omega
      · rw [if_neg heq] at h
        cases hs2 : Teletext.VBI.sweep err pb hpb st1 with
        | none =>
          rw [show (9 : Nat) = 8 + 1 from rfl,
            Teletext.VBI.deconvLoop_succ_none err pb hpb 8 st1 st1.bytes true (it + 1) hs2] at h
          exact absurd h (by simp)
        | some st2 =>
          rw [show (9 : Nat) = 8 + 1 from rfl,
            Teletext.VBI.deconvLoop_succ_some err pb hpb 8 st1 st1.bytes true (it + 1) st2 hs2,
            if_pos rfl] at h
          obtain ⟨-, h2⟩ := Prod.mk.injEq _ _ _ _ ▸ Option.some.inj h
          omega

namespace Teletext

namespace VBI

/-- A trivial abstract render-error (used as a concrete instance of the
abstracted numerical kernel in witnesses). -/
def constErr : (Nat → ℚ) → ℚ := fun _ => 0

/-- A constant singleton alphabet. -/
def singletonAlpha (b : Nat) : Nat → List Nat := fun _ => [b]

/-- The fresh decoder state entering `_deconvolve` from `deconvolve`:
guess buffer from the constructor, `_bytes` zeroed, counter zero. -/
def zeroState : DeconvState :=
  { guess := guessInit, bytes := List.replicate 42 0, count := 0 }

theorem setbyte_eq_of_lt (g : Nat → ℚ) (n : Int) (b : Nat) (i : Nat)
    (hn : 3 ≤ n) (hi : i < 32) : setbyte g n b i = g i := by
  unfold setbyte
  rw [if_neg]
  rintro ⟨h1, -⟩
  omega

theorem setbyte_eq_of_ge (g : Nat → ℚ) (n : Int) (b : Nat) (i : Nat)
    (hn : n ≤ 45) (hi : 376 ≤ i) : setbyte g n b i = g i := by
  unfold setbyte
  rw [if_neg]
  rintro ⟨-, h2⟩
  omega

theorem stepPos_guess_preserve (err : (Nat → ℚ) → ℚ) (pb hpb : Nat → List Nat)
    (st : DeconvState) (n : Nat) (st' : DeconvState)
    (h : stepPos err pb hpb st n = some st') (hn : n < 42)
    (i : Nat) (hi : i < 32 ∨ 376 ≤ i) : st'.guess i = st.guess i := by
  have h3a : (3 : Int) ≤ (n : Int) + 3 := by omega
  have h3b : ((n : Int) + 3) ≤ 45 := by omega
  have h4a : (3 : Int) ≤ (n : Int) + 4 := by omega
  have h4b : ((n : Int) + 4) ≤ 45 := by omega
  have hset : ∀ (g : Nat → ℚ) (p : Int) (b : Nat), 3 ≤ p → p ≤ 45 →
      setbyte g p b i = g i := by
    intro g p b hp1 hp2
    rcases hi with hi | hi
    · exact setbyte_eq_of_lt g p b i hp1 hi
    · exact setbyte_eq_of_ge g p b i hp2 hi
  unfold stepPos at h
  split at h
  · next b heq =>
    obtain rfl := Option.some.inj h
    exact hset st.guess _ b h3a h3b
  · next heq1 =>
    split at h
    · exact absurd h (by simp)
    · next m hm =>
      obtain rfl := Option.some.inj h
      show setbyte _ _ _ i = _
      rw [hset _ _ _ h3a h3b, hset _ _ _ h4a h4b, hset _ _ _ h3a h3b]

theorem foldl_bind_none (err : (Nat → ℚ) → ℚ) (pb hpb : Nat → List Nat) :
    ∀ (l : List Nat),
    l.foldl (fun acc n => acc.bind (fun s => stepPos err pb hpb s n)) none = none := by
  intro l
  induction l with
  | nil => rfl
  | cons n l ih => simpa using ih

theorem sweepAux_guess_preserve (err : (Nat → ℚ) → ℚ) (pb hpb : Nat → List Nat) :
    ∀ (l : List Nat), (∀ n ∈ l, n < 42) → ∀ (st st' : DeconvState),
    l.foldl (fun acc n => acc.bind (fun s => stepPos err pb hpb s n)) (some st) =
      some st' →
    ∀ i, (i < 32 ∨ 376 ≤ i) → st'.guess i = st.guess i := by
  intro l
  induction l with
  | nil =>
    intro _ st st' h i hi
    obtain rfl := Option.some.inj h
    rfl
  | cons n l ih =>
    intro hmem st st' h i hi
    simp only [List.foldl_cons, Option.some_bind] at h
    cases hs : stepPos err pb hpb st n with
    | none =>
      rw [hs, foldl_bind_none] at h
      exact absurd h (by simp)
    | some s1 =>
      rw [hs] at h
      have h1 := ih (fun t ht => hmem t (List.mem_cons_of_mem _ ht)) s1 st' h i hi
      have h2 := stepPos_guess_preserve err pb hpb st n s1 hs
        (hmem n (List.mem_cons_self _ _)) i hi
      rw [h1, h2]

theorem sweep_guess_preserve (err : (Nat → ℚ) → ℚ) (pb hpb : Nat → List Nat)
    (st st' : DeconvState) (h : sweep err pb hpb st = some st')
    (i : Nat) (hi : i < 32 ∨ 376 ≤ i) : st'.guess i = st.guess i :=
  sweepAux_guess_preserve err pb hpb (List.range 42)
    (fun _ ht => List.mem_range.mp ht) st st' h i hi

theorem deconvLoop_guess_preserve (err : (Nat → ℚ) → ℚ) (pb hpb : Nat → List Nat) :
    ∀ (fuel : Nat) (st : DeconvState) (old : List Nat) (al : Bool) (it : Nat)
      (stf : DeconvState) (itf : Nat),
    deconvLoop err pb hpb fuel st old al it = some (stf, itf) →
    ∀ i, (i < 32 ∨ 376 ≤ i) → stf.guess i = st.guess i := by
  intro fuel
  induction fuel with
  | zero =>
    intro st old al it stf itf h i hi
    obtain h' := Option.some.inj h
    rw [show stf = st from congrArg Prod.fst h'.symm]
  | succ fuel ih =>
    intro st old al it stf itf h i hi
    cases hs : sweep err pb hpb st with
    | none =>
      rw [deconvLoop_succ_none err pb hpb fuel st old al it hs] at h
      exact absurd h (by simp)
    | some s1 =>
      rw [deconvLoop_succ_some err pb hpb fuel st old al it s1 hs] at h
      have hsp := sweep_guess_preserve err pb hpb st s1 hs i hi
      by_cases hal : al
      · rw [if_pos hal] at h
        obtain h' := Option.some.inj h
        rw [show stf = s1 from congrArg Prod.fst h'.symm]
        exact hsp
      · rw [if_neg hal] at h
        by_cases heq : s1.bytes = old
        · rw [if_pos heq] at h
          obtain h' := Option.some.inj h
          rw [show stf = s1 from congrArg Prod.fst h'.symm]
          exact hsp
        · rw [if_neg heq] at h
          have := ih s1 s1.bytes true (it + 1) stf itf h i hi
          rw [this, hsp]

end VBI

end Teletext

/-- Claim C8. Throughout one line's decoding the guess buffer's framing bytes
at byte positions 0, 1, 2 (bit indices 8..31) remain `0x55, 0x55, 0x27` and
the pre-padding byte (bit indices 0..7) remains `0x00`: every write the
deconvolution performs targets byte positions `n+3` or `n+4` with
`n < 42`, i.e. bit indices in `[32, 376)`, so bits below 32 (and at or
beyond 376) are never touched; alignment (`find_offset_and_scale`) and mask
construction (`make_guess_mask`) do not write the guess buffer at all. -/
theorem C8_framing_preserved (err : (Nat → ℚ) → ℚ) (pb hpb : Nat → List Nat)
    (st : Teletext.VBI.DeconvState) (old : List Nat) (al : Bool) (it : Nat)
    (stf : Teletext.VBI.DeconvState) (itf : Nat)
    (hg : ∀ i, i < 32 → st.guess i = Teletext.VBI.guessInit i)
    (h : Teletext.VBI.deconvolveInner err pb hpb st old al it = some (stf, itf)) :
    (∀ i, i < 32 → stf.guess i = Teletext.VBI.guessInit i) ∧
    (∀ i, 376 ≤ i → stf.guess i = st.guess i) ∧
    (∀ j, j < 8 →
      Teletext.VBI.guessInit (8 + j) = (if Nat.testBit 0x55 j then (255 : ℚ) else 0) ∧
      Teletext.VBI.guessInit (16 + j) = (if Nat.testBit 0x55 j then (255 : ℚ) else 0) ∧
      Teletext.VBI.guessInit (24 + j) = (if Nat.testBit 0x27 j then (255 : ℚ) else 0) ∧
      Teletext.VBI.guessInit j = 0) := by
  refine ⟨?_, ?_, ?_⟩
  · intro i hi
    rw [Teletext.VBI.deconvLoop_guess_preserve err pb hpb 10 st old al it stf itf h i
      (Or.inl hi)]
    exact hg i hi
  · intro i hi
    exact Teletext.VBI.deconvLoop_guess_preserve err pb hpb 10 st old al it stf itf h i
      (Or.inr hi)
  · intro j hj
    interval_cases j <;>
      exact ⟨by with_unfolding_all decide, by with_unfolding_all decide,
        by with_unfolding_all decide, by with_unfolding_all decide⟩

/-- Witness for C8: a concrete two-sweep run from the constructor state
with the all-0x00 singleton alphabet. -/
theorem C8_framing_preserved_witness :
    ∃ q : Teletext.VBI.DeconvState × Nat,
      Teletext.VBI.deconvolveInner Teletext.VBI.constErr
        (Teletext.VBI.singletonAlpha 0) (Teletext.VBI.singletonAlpha 0)
        Teletext.VBI.zeroState (List.replicate 42 0) false 0 = some q ∧
      (∀ i, i < 32 → q.1.guess i = Teletext.VBI.guessInit i) := by
  have h : Teletext.VBI.deconvolveInner Teletext.VBI.constErr
      (Teletext.VBI.singletonAlpha 0) (Teletext.VBI.singletonAlpha 0)
      Teletext.VBI.zeroState (List.replicate 42 0) false 0 =
      some ((Teletext.VBI.deconvolveInner Teletext.VBI.constErr
        (Teletext.VBI.singletonAlpha 0) (Teletext.VBI.singletonAlpha 0)
        Teletext.VBI.zeroState (List.replicate 42 0) false 0).getD
          (Teletext.VBI.zeroState, 0)) := rfl
  exact ⟨_, h,
    (C8_framing_preserved Teletext.VBI.constErr (Teletext.VBI.singletonAlpha 0)
      (Teletext.VBI.singletonAlpha 0) Teletext.VBI.zeroState
      (List.replicate 42 0) false 0 _ _ (fun i _ => rfl) h).1⟩

/-- Witness for C9: a concrete converged run takes one iteration, within
the bound of two. -/
theorem C9_at_most_two_sweeps_witness :
    ∃ q : Teletext.VBI.DeconvState × Nat,
      Teletext.VBI.deconvolveInner Teletext.VBI.constErr
        (Teletext.VBI.singletonAlpha 0) (Teletext.VBI.singletonAlpha 0)
        Teletext.VBI.zeroState (List.replicate 42 0) false 0 = some q ∧
      0 < q.2 ∧ q.2 ≤ 0 + 2 := by
  have h : Teletext.VBI.deconvolveInner Teletext.VBI.constErr
      (Teletext.VBI.singletonAlpha 0) (Teletext.VBI.singletonAlpha 0)
      Teletext.VBI.zeroState (List.replicate 42 0) false 0 =
      some ((Teletext.VBI.deconvolveInner Teletext.VBI.constErr
        (Teletext.VBI.singletonAlpha 0) (Teletext.VBI.singletonAlpha 0)
        Teletext.VBI.zeroState (List.replicate 42 0) false 0).getD
          (Teletext.VBI.zeroState, 0)) := rfl
  exact ⟨_, h, C9_at_most_two_sweeps Teletext.VBI.constErr
    (Teletext.VBI.singletonAlpha 0) (Teletext.VBI.singletonAlpha 0)
    Teletext.VBI.zeroState (List.replicate 42 0) false 0 _ _ h⟩

namespace Teletext

namespace VBI

theorem getD_set_self (l : List Nat) (n x : Nat) (hn : n < l.length) :
    (l.set n x).getD n 0 = x := by
  rw [List.getD_eq_getElem?_getD, List.getElem?_set_self hn]
  rfl

/-- Whatever `_deconvolve` commits at a position is a member of that
position's alphabet. -/
theorem stepPos_commit_mem (err : (Nat → ℚ) → ℚ) (pb hpb : Nat → List Nat)
    (st : DeconvState) (n : Nat) (st' : DeconvState)
    (hn : n < st.bytes.length)
    (h : stepPos err pb hpb st n = some st') :
    st'.bytes.getD n 0 ∈ pb n := by
  unfold stepPos at h
  split at h
  · next b heq =>
    obtain rfl := Option.some.inj h
    show (st.bytes.set n b).getD n 0 ∈ pb n
    rw [getD_set_self st.bytes n b hn, heq]
    exact List.mem_singleton_self b
  · next heq1 =>
    split at h
    · exact absurd h (by simp)
    · next m hm =>
      obtain rfl := Option.some.inj h
      show (st.bytes.set n m.2.1).getD n 0 ∈ pb n
      rw [getD_set_self st.bytes n m.2.1 hn]
      have hsorted : m ∈ List.insertionSort ansR (ansList err pb hpb st n) := by
        cases hsl : List.insertionSort ansR (ansList err pb hpb st n) with
        | nil =>
          rw [hsl] at hm
          exact absurd hm (by simp)
        | cons a t =>
          rw [hsl] at hm
          obtain rfl := Option.some.inj hm
          exact List.mem_cons_self _ _
      have hmem : m ∈ ansList err pb hpb st n :=
        (List.perm_insertionSort ansR (ansList err pb hpb st n)).mem_iff.mp hsorted
      obtain ⟨b1, hb1, hmm⟩ := List.mem_flatMap.mp hmem
      obtain ⟨b2, hb2, heqm⟩ := List.mem_map.mp hmm
      rw [← heqm]
      exact hb1

end VBI

end Teletext

/-- Claim C2. For every line and every data position `n`, the byte `x`
committed into the packet by `_deconvolve` (with alphabets produced by
`make_possible_bytes`) satisfies `(x & mask0[n]) == x == (x | mask1[n])` at
the time of commit, or else the mask-filtered alphabet for position `n` was
empty and `x` was committed from the unfiltered seed alphabet; in the
empty-filter case no error is surfaced, and the position's alphabet is
never left empty (a nonempty seed yields a nonempty alphabet). -/
theorem C2_commit_admissible (m0 m1 : Nat → Nat) (seeds : Nat → List Nat)
    (err : (Nat → ℚ) → ℚ) (hpb : Nat → List Nat)
    (st : Teletext.VBI.DeconvState) (n : Nat) (st' : Teletext.VBI.DeconvState)
    (hn : n < st.bytes.length)
    (hstep : Teletext.VBI.stepPos err (Teletext.VBI.makePossibleBytes m0 m1 seeds)
      hpb st n = some st') :
    ((((st'.bytes.getD n 0) &&& m0 n) = st'.bytes.getD n 0 ∧
       st'.bytes.getD n 0 = (st'.bytes.getD n 0 ||| m1 n)) ∨
     (Teletext.VBI.maskFilter m0 m1 (seeds n) n = [] ∧
       st'.bytes.getD n 0 ∈ seeds n)) ∧
    (seeds n ≠ [] → Teletext.VBI.makePossibleBytes m0 m1 seeds n ≠ []) := by
  have hx := Teletext.VBI.stepPos_commit_mem err
    (Teletext.VBI.makePossibleBytes m0 m1 seeds) hpb st n st' hn hstep
  constructor
  · unfold Teletext.VBI.makePossibleBytes at hx
    by_cases hf : Teletext.VBI.maskFilter m0 m1 (seeds n) n = []
    · rw [if_pos hf] at hx
      exact Or.inr ⟨hf, hx⟩
    · rw [if_neg hf] at hx
      unfold Teletext.VBI.maskFilter at hx
      have hc := (List.mem_filter.mp hx).2
      exact Or.inl (by simpa using of_decide_eq_true hc)
  · intro hs
    unfold Teletext.VBI.makePossibleBytes
    by_cases hf : Teletext.VBI.maskFilter m0 m1 (seeds n) n = []
    · rw [if_pos hf]
      exact hs
    · rw [if_neg hf]
      exact hf

/-- Witness for C2 at a singleton seed `[7]` with trivial masks. -/
theorem C2_commit_admissible_witness :
    ∃ s' : Teletext.VBI.DeconvState,
      Teletext.VBI.stepPos Teletext.VBI.constErr
        (Teletext.VBI.makePossibleBytes (fun _ => 255) (fun _ => 0)
          (Teletext.VBI.singletonAlpha 7)) (Teletext.VBI.singletonAlpha 0)
        Teletext.VBI.zeroState 0 = some s' ∧
      (((((s'.bytes.getD 0 0) &&& 255) = s'.bytes.getD 0 0 ∧
          s'.bytes.getD 0 0 = (s'.bytes.getD 0 0 ||| 0)) ∨
        (Teletext.VBI.maskFilter (fun _ => 255) (fun _ => 0) [7] 0 = [] ∧
          s'.bytes.getD 0 0 ∈ [7])) ∧
       (([7] : List Nat) ≠ [] →
         Teletext.VBI.makePossibleBytes (fun _ => 255) (fun _ => 0)
           (Teletext.VBI.singletonAlpha 7) 0 ≠ [])) := by
  have h : Teletext.VBI.stepPos Teletext.VBI.constErr
      (Teletext.VBI.makePossibleBytes (fun _ => 255) (fun _ => 0)
        (Teletext.VBI.singletonAlpha 7)) (Teletext.VBI.singletonAlpha 0)
      Teletext.VBI.zeroState 0 =
      some ((Teletext.VBI.stepPos Teletext.VBI.constErr
        (Teletext.VBI.makePossibleBytes (fun _ => 255) (fun _ => 0)
          (Teletext.VBI.singletonAlpha 7)) (Teletext.VBI.singletonAlpha 0)
        Teletext.VBI.zeroState 0).getD Teletext.VBI.zeroState) := rfl
  exact ⟨_, h, C2_commit_admissible (fun _ => 255) (fun _ => 0)
    (Teletext.VBI.singletonAlpha 7) Teletext.VBI.constErr
    (Teletext.VBI.singletonAlpha 0) Teletext.VBI.zeroState 0 _
    (by decide) h⟩

/-- Claim C4. In `_deconvolve`, at a position whose alphabet has more than
one candidate, every pair `(b1, b2)` with `b1 ∈ possible_bytes[n]` and
`b2 ∈ half_possible_bytes[n+1]` (or `b2 ∈ {0}` at `n = 41`) is evaluated —
the candidate counter grows by `|nb| * |nnb|` and the tuple list contains
one entry per pair — and the committed byte is the `b1` of the tuple that
is minimal in the ascending lexicographic order on `(error, b1, b2)`
(minimal error, ties broken by lowest `b1`, then lowest `b2`); at a
single-candidate position that byte is committed without search and the
counter does not move. -/
theorem C4_search_selection (err : (Nat → ℚ) → ℚ) (pb hpb : Nat → List Nat)
    (st : Teletext.VBI.DeconvState) (n : Nat) (st' : Teletext.VBI.DeconvState)
    (hn : n < st.bytes.length)
    (hstep : Teletext.VBI.stepPos err pb hpb st n = some st') :
    (∀ b, pb n = [b] → st'.bytes.getD n 0 = b ∧ st'.count = st.count) ∧
    (1 < (pb n).length →
      st'.count = st.count + (pb n).length * (Teletext.VBI.nnbOf hpb n).length ∧
      ∃ m : ℚ × Nat × Nat,
        m ∈ Teletext.VBI.ansList err pb hpb st n ∧
        (∀ p ∈ Teletext.VBI.ansList err pb hpb st n, Teletext.VBI.ansR m p) ∧
        st'.bytes.getD n 0 = m.2.1) := by
  unfold Teletext.VBI.stepPos at hstep
  split at hstep
  · next b0 heq =>
    obtain rfl := Option.some.inj hstep
    constructor
    · intro b hb
      have hbb : b0 = b := by
        have := hb.symm.trans heq
        exact (List.cons.inj this).1.symm
      subst hbb
      exact ⟨Teletext.VBI.getD_set_self st.bytes n b0 hn, rfl⟩
    · intro hlen
      rw [heq] at hlen
      simp at hlen
  · next heq1 =>
    split at hstep
    · exact absurd hstep (by simp)
    · next m hm =>
      obtain rfl := Option.some.inj hstep
      have hsorted_mem : m ∈ List.insertionSort Teletext.VBI.ansR
          (Teletext.VBI.ansList err pb hpb st n) := by
        cases hsl : List.insertionSort Teletext.VBI.ansR
            (Teletext.VBI.ansList err pb hpb st n) with
        | nil =>
          rw [hsl] at hm
          exact absurd hm (by simp)
        | cons a t =>
          rw [hsl] at hm
          obtain rfl := Option.some.inj hm
          exact List.mem_cons_self _ _
      have hperm := List.perm_insertionSort Teletext.VBI.ansR
        (Teletext.VBI.ansList err pb hpb st n)
      constructor
      · intro b hb
        exact absurd hb (heq1 b)
      · intro _
        refine ⟨rfl, m, hperm.mem_iff.mp hsorted_mem, ?_,
          Teletext.VBI.getD_set_self st.bytes n m.2.1 hn⟩
        intro p hp
        have hpsorted : p ∈ List.insertionSort Teletext.VBI.ansR
            (Teletext.VBI.ansList err pb hpb st n) := hperm.mem_iff.mpr hp
        have hsorted := List.sorted_insertionSort Teletext.VBI.ansR
          (Teletext.VBI.ansList err pb hpb st n)
        cases hsl : List.insertionSort Teletext.VBI.ansR
            (Teletext.VBI.ansList err pb hpb st n) with
        | nil =>
          rw [hsl] at hm
          exact absurd hm (by simp)
        | cons a t =>
          rw [hsl] at hm
          obtain rfl := Option.some.inj hm
          rw [hsl] at hpsorted hsorted
          rcases List.mem_cons.mp hpsorted with hpa | hpt
          · rw [hpa]
            exact Teletext.VBI.ansR_refl _
          · exact List.rel_of_pairwise_cons hsorted hpt

/-- Witness for C4: two candidates `[5, 3]` with a constant (tied) error;
the tie-break commits the lower `b1 = 3`. -/
theorem C4_search_selection_witness :
    ∃ s' : Teletext.VBI.DeconvState,
      Teletext.VBI.stepPos Teletext.VBI.constErr (fun _ => [5, 3])
        (Teletext.VBI.singletonAlpha 1) Teletext.VBI.zeroState 0 = some s' ∧
      s'.count = Teletext.VBI.zeroState.count + 2 * 1 ∧
      (∃ m : ℚ × Nat × Nat,
        m ∈ Teletext.VBI.ansList Teletext.VBI.constErr (fun _ => [5, 3])
          (Teletext.VBI.singletonAlpha 1) Teletext.VBI.zeroState 0 ∧
        (∀ p ∈ Teletext.VBI.ansList Teletext.VBI.constErr (fun _ => [5, 3])
          (Teletext.VBI.singletonAlpha 1) Teletext.VBI.zeroState 0,
          Teletext.VBI.ansR m p) ∧
        s'.bytes.getD 0 0 = m.2.1) ∧
      s'.bytes.getD 0 0 = 3 := by
  have h : Teletext.VBI.stepPos Teletext.VBI.constErr (fun _ => [5, 3])
      (Teletext.VBI.singletonAlpha 1) Teletext.VBI.zeroState 0 =
      some ((Teletext.VBI.stepPos Teletext.VBI.constErr (fun _ => [5, 3])
        (Teletext.VBI.singletonAlpha 1) Teletext.VBI.zeroState 0).getD
          Teletext.VBI.zeroState) := by
    with_unfolding_all rfl
  have hc := C4_search_selection Teletext.VBI.constErr (fun _ => [5, 3])
    (Teletext.VBI.singletonAlpha 1) Teletext.VBI.zeroState 0 _ (by decide) h
  have hlen : 1 < ([5, 3] : List Nat).length := by decide
  obtain ⟨hcount, m, hmem, hmin, hcommit⟩ := hc.2 hlen
  refine ⟨_, h, ?_, ⟨m, hmem, hmin, hcommit⟩, ?_⟩
  · simpa using hcount
  · rw [hcommit]
    -- the committed byte is the b1 of the minimal tuple: with tied errors
    -- the tuple (0, 3, 1) beats (0, 5, 1)
    have : ((Teletext.VBI.stepPos Teletext.VBI.constErr (fun _ => [5, 3])
        (Teletext.VBI.singletonAlpha 1) Teletext.VBI.zeroState 0).getD
          Teletext.VBI.zeroState).bytes.getD 0 0 = 3 := by
      with_unfolding_all decide
    rw [hcommit] at this
    exact this

namespace Teletext

namespace VBI

/-- The decoder state of a line that has converged to the all-0xff packet
(used as a concrete converged instance). -/
def fullState : DeconvState :=
  { guess := fun _ => 255, bytes := List.replicate 42 255, count := 0 }

end VBI

end Teletext

/-- Claim C7, amended. If a line's deconvolution has already converged — the
first sweep of a rerun reproduces the 42 bytes `B` and a further sweep
reproduces them again — and `B` is not the all-zero vector, then running
`deconvolve` a second time yields the same 42 bytes but terminates in the
*second* sweep, not the first: `deconvolve` re-binds `_bytes` and
`_oldbytes` to fresh zero arrays (vbi.py lines 234-235), so the comparison
after the first sweep fails (`B ≠ 0⃗`), `_oldbytes` becomes an alias of
`_bytes`, and the comparison after the second sweep trivially succeeds.
The iteration counter increases by exactly 2. -/
theorem C7_second_run_two_sweeps (err : (Nat → ℚ) → ℚ) (pb hpb : Nat → List Nat)
    (G : Nat → ℚ) (c it : Nat) (s1 s2 : Teletext.VBI.DeconvState) (B : List Nat)
    (hs1 : Teletext.VBI.sweep err pb hpb
      { guess := G, bytes := List.replicate 42 0, count := c } = some s1)
    (hb1 : s1.bytes = B)
    (hs2 : Teletext.VBI.sweep err pb hpb s1 = some s2)
    (hb2 : s2.bytes = B)
    (hB : B ≠ List.replicate 42 0) :
    Teletext.VBI.deconvolveRun err pb hpb G c it = some (s2, it + 2) ∧
    s2.bytes = B := by
  refine ⟨?_, hb2⟩
  unfold Teletext.VBI.deconvolveRun Teletext.VBI.deconvolveInner
  rw [show (10 : Nat) = 9 + 1 from rfl,
    Teletext.VBI.deconvLoop_succ_some err pb hpb 9 _ _ _ _ s1 hs1]
  rw [if_neg (by simp), if_neg (by rw [hb1]; exact hB)]
  rw [show (9 : Nat) = 8 + 1 from rfl,
    Teletext.VBI.deconvLoop_succ_some err pb hpb 8 s1 s1.bytes true (it + 1) s2 hs2]
  rw [if_pos rfl]

/-- Witness for the amended C7: the all-0xff converged line re-run from
reset buffers yields the same bytes after exactly two sweeps. -/
theorem C7_second_run_two_sweeps_witness :
    ∃ s1 s2 : Teletext.VBI.DeconvState,
      Teletext.VBI.sweep Teletext.VBI.constErr (Teletext.VBI.singletonAlpha 255)
        (Teletext.VBI.singletonAlpha 0)
        { guess := fun _ => 255, bytes := List.replicate 42 0, count := 0 } = some s1 ∧
      Teletext.VBI.sweep Teletext.VBI.constErr (Teletext.VBI.singletonAlpha 255)
        (Teletext.VBI.singletonAlpha 0) s1 = some s2 ∧
      Teletext.VBI.deconvolveRun Teletext.VBI.constErr
        (Teletext.VBI.singletonAlpha 255) (Teletext.VBI.singletonAlpha 0)
        (fun _ => 255) 0 0 = some (s2, 0 + 2) ∧
      s2.bytes = List.replicate 42 255 := by
  have h1 : Teletext.VBI.sweep Teletext.VBI.constErr (Teletext.VBI.singletonAlpha 255)
      (Teletext.VBI.singletonAlpha 0)
      { guess := fun _ => 255, bytes := List.replicate 42 0, count := 0 } =
      some ((Teletext.VBI.sweep Teletext.VBI.constErr (Teletext.VBI.singletonAlpha 255)
        (Teletext.VBI.singletonAlpha 0)
        { guess := fun _ => 255, bytes := List.replicate 42 0, count := 0 }).getD
          Teletext.VBI.fullState) := rfl
  set s1 := (Teletext.VBI.sweep Teletext.VBI.constErr (Teletext.VBI.singletonAlpha 255)
    (Teletext.VBI.singletonAlpha 0)
    { guess := fun _ => 255, bytes := List.replicate 42 0, count := 0 }).getD
      Teletext.VBI.fullState with hs1def
  have h2 : Teletext.VBI.sweep Teletext.VBI.constErr (Teletext.VBI.singletonAlpha 255)
      (Teletext.VBI.singletonAlpha 0) s1 =
      some ((Teletext.VBI.sweep Teletext.VBI.constErr (Teletext.VBI.singletonAlpha 255)
        (Teletext.VBI.singletonAlpha 0) s1).getD Teletext.VBI.fullState) := rfl
  have hb1 : s1.bytes = List.replicate 42 255 := by
    rw [hs1def]
    with_unfolding_all decide
  have hb2 : ((Teletext.VBI.sweep Teletext.VBI.constErr
      (Teletext.VBI.singletonAlpha 255) (Teletext.VBI.singletonAlpha 0) s1).getD
        Teletext.VBI.fullState).bytes = List.replicate 42 255 := by
    rw [hs1def]
    with_unfolding_all decide
  have hB : (List.replicate 42 255 : List Nat) ≠ List.replicate 42 0 := by decide
  obtain ⟨hrun, hbytes⟩ := C7_second_run_two_sweeps Teletext.VBI.constErr
    (Teletext.VBI.singletonAlpha 255) (Teletext.VBI.singletonAlpha 0)
    (fun _ => 255) 0 0 s1 _ (List.replicate 42 255) h1 hb1 h2 hb2 hB
  exact ⟨s1, _, h1, h2, hrun, hbytes⟩

set_option maxRecDepth 10000 in
/-- Claim C7, counterexample. The claim as stated — a second `deconvolve`
run on an already-converged line terminates in the *first* sweep — fails:
on a line converged to the all-0xff packet (a sweep reproduces its 42
bytes, first conjunct), the second `deconvolve` run still increments the
iteration counter by 2, because `_bytes`/`_oldbytes` are reset to zeros so
the first comparison cannot succeed. -/
theorem C7_counterexample :
    (∃ s' : Teletext.VBI.DeconvState,
      Teletext.VBI.sweep Teletext.VBI.constErr (Teletext.VBI.singletonAlpha 255)
        (Teletext.VBI.singletonAlpha 0) Teletext.VBI.fullState = some s' ∧
      s'.bytes = Teletext.VBI.fullState.bytes) ∧
    (∃ q : Teletext.VBI.DeconvState × Nat,
      Teletext.VBI.deconvolveRun Teletext.VBI.constErr
        (Teletext.VBI.singletonAlpha 255) (Teletext.VBI.singletonAlpha 0)
        (fun _ => 255) 0 0 = some q ∧
      q.1.bytes = Teletext.VBI.fullState.bytes ∧ q.2 = 2 ∧ q.2 ≠ 1) := by
  constructor
  · refine ⟨(Teletext.VBI.sweep Teletext.VBI.constErr (Teletext.VBI.singletonAlpha 255)
      (Teletext.VBI.singletonAlpha 0) Teletext.VBI.fullState).getD
        Teletext.VBI.fullState, rfl, ?_⟩
    with_unfolding_all decide
  · refine ⟨(Teletext.VBI.deconvolveRun Teletext.VBI.constErr
      (Teletext.VBI.singletonAlpha 255) (Teletext.VBI.singletonAlpha 0)
      (fun _ => 255) 0 0).getD (Teletext.VBI.fullState, 0), rfl, ?_, ?_, ?_⟩
    · with_unfolding_all decide
    · with_unfolding_all decide
    · with_unfolding_all decide
